import Mathlib

/-!
Shallow embedding of the log event bus of the zondarr backend:
the in-memory ring buffer (src/backend/src/zondarr/core/log_buffer.py)
and the SSE streaming endpoint (src/backend/src/zondarr/api/logs.py).

Python state is passed explicitly: each method of the Python class
LogBuffer becomes a function taking and (when it writes a field)
returning the buffer record.  The deque with maxlen is modelled as a
List together with the maxlen bound; a Python dict is an association
list; a fallible Python str() call returns an Except value.
-/

namespace Zondarr

/-- A single captured log record (class LogEntry in log_buffer.py).
The fields dict is modelled as an association list in insertion order. -/
structure LogEntry where
  seq : Nat
  timestamp : String
  level : String
  logger_name : String
  message : String
  fields : List (String × String)
deriving DecidableEq, Repr

/-- Exceptions that the embedded Python fragments can raise. -/
inductive PyExc where
  | strError
  | typeError
  | timeoutError
deriving DecidableEq, Repr

/-- A Python value stored in a structlog event dict: either an object whose
str() succeeds with the given rendering, or one whose str() raises. -/
inductive PyVal where
  | str (s : String)
  | badObj
deriving DecidableEq, Repr

/-- Python str(v): total on well-behaved objects, raises on badObj. -/
def pyStrOf : PyVal → Except PyExc String
  | .str s => .ok s
  | .badObj => .error .strError

/-- Python str.upper(), written as a map over the characters so that it
evaluates on concrete strings (the source only uppercases ASCII level
names, where this agrees with Python). -/
def pyUpper (s : String) : String := ⟨s.data.map Char.toUpper⟩

/-- dict.get(k, default) on an event dict (association list, first match). -/
def dictGet (d : List (String × PyVal)) (k : String) (dflt : PyVal) : PyVal :=
  match d.lookup k with
  | some v => v
  | none => dflt

/-- The reserved keys _KNOWN_KEYS of log_buffer.py. -/
def knownKeys : List String :=
  ["event", "level", "timestamp", "_logger", "_record", "_from_structlog"]

/-- Append on a deque constructed with the given maxlen: push right and,
when the length would exceed maxlen, discard from the left. -/
def dequeAppend (maxlen : Nat) (d : List LogEntry) (e : LogEntry) : List LogEntry :=
  let d' := d ++ [e]
  if maxlen < d'.length then d'.drop (d'.length - maxlen) else d'

/-- State of the class LogBuffer: fields _deque, _seq, _loop, _condition,
plus the maxlen the deque was constructed with.  The loop and condition
objects carry no data the embedding needs, so they are Option Unit. -/
structure LogBuffer where
  deque : List LogEntry
  seq : Nat
  loop : Option Unit
  condition : Option Unit
  maxlen : Nat
deriving DecidableEq, Repr

/-- LogBuffer.__init__ (maxlen defaults to 5000 in the source). -/
def LogBuffer.init (maxlen : Nat := 5000) : LogBuffer :=
  { deque := [], seq := 0, loop := none, condition := none, maxlen := maxlen }

/-- LogBuffer.bind_loop: bind to an event loop and create the condition. -/
def LogBuffer.bind_loop (b : LogBuffer) : LogBuffer :=
  { b with loop := some (), condition := some () }

/-- LogBuffer.append: push the entry (evicting per deque maxlen) and, when a
loop and a condition are bound, schedule a cross-thread notification.  The
returned Bool records whether call_soon_threadsafe was invoked. -/
def LogBuffer.append (b : LogBuffer) (e : LogEntry) : LogBuffer × Bool :=
  ({ b with deque := dequeAppend b.maxlen b.deque e },
   b.loop.isSome && b.condition.isSome)

/-- LogBuffer.next_seq: allocate and return the next sequence number. -/
def LogBuffer.next_seq (b : LogBuffer) : Nat × LogBuffer :=
  (b.seq + 1, { b with seq := b.seq + 1 })

/-- LogBuffer.get_entries_since: entries with seq > after_seq together with
the current max seq, and the (unchanged) buffer state the method leaves
behind — the method body assigns no field of self. -/
def LogBuffer.get_entries_since (b : LogBuffer) (after_seq : Nat) :
    (List LogEntry × Nat) × LogBuffer :=
  ((b.deque.filter (fun e => after_seq < e.seq), b.seq), b)

/-- Observable behaviour of one call to LogBuffer.wait_for_new: either the
fallback branch (condition unbound: sleep the full timeout, return False)
or a bounded wait on the condition variable. -/
inductive WaitBehavior where
  | fallbackSleep (timeout : Nat) (result : Bool)
  | condWait (timeout : Nat)
deriving DecidableEq, Repr

/-- LogBuffer.wait_for_new (timeout in whole seconds; the source default is
30.0): with no condition bound it sleeps the whole timeout and returns
False, otherwise it waits on the condition bounded by the timeout. -/
def LogBuffer.wait_for_new (b : LogBuffer) (timeout : Nat := 30) : WaitBehavior :=
  match b.condition with
  | none => .fallbackSleep timeout false
  | some _ => .condWait timeout

/-- Collect the extra-field loop of capture_log_processor: every key not in
the reserved set is kept with its stringified value; a str() failure
mid-loop propagates as the exception the source would raise. -/
def collectFields : List (String × PyVal) → Except PyExc (List (String × String))
  | [] => .ok []
  | (k, v) :: rest =>
    if k ∈ knownKeys then collectFields rest
    else do
      let s ← pyStrOf v
      let tail ← collectFields rest
      .ok ((k, s) :: tail)

/-- capture_log_processor of log_buffer.py, with the module singleton made
an explicit argument: extract the known fields, stringify the extras,
allocate a seq, append the entry, and return the event dict unchanged.
The source has no try/except, so any str() failure propagates. -/
def capture_log_processor (event_dict : List (String × PyVal)) (b : LogBuffer) :
    Except PyExc (List (String × PyVal) × LogBuffer) := do
  let timestamp ← pyStrOf (dictGet event_dict "timestamp" (.str ""))
  let levelRaw ← pyStrOf (dictGet event_dict "level" (.str "INFO"))
  let level := pyUpper levelRaw
  let logger_name ← pyStrOf (dictGet event_dict "_logger" (.str ""))
  let message ← pyStrOf (dictGet event_dict "event" (.str ""))
  let flds ← collectFields event_dict
  let (seq, b1) := b.next_seq
  let entry : LogEntry :=
    { seq := seq, timestamp := timestamp, level := level,
      logger_name := logger_name, message := message, fields := flds }
  let (b2, _signaled) := b1.append entry
  .ok (event_dict, b2)

/-- The _LEVEL_ORDER table of logs.py. -/
def levelOrderTable : List (String × Nat) :=
  [("DEBUG", 10), ("INFO", 20), ("WARNING", 30), ("ERROR", 40), ("CRITICAL", 50)]

/-- _LEVEL_ORDER.get(s, 0). -/
def levelOrderGet (s : String) : Nat :=
  (levelOrderTable.lookup s).getD 0

/-- The min_level computation of LogController.stream_logs:
_LEVEL_ORDER.get(level.upper(), 0) if level else 0 — None and the empty
string are both falsy. -/
def minLevelOf (level : Option String) : Nat :=
  match level with
  | none => 0
  | some l => if l = "" then 0 else levelOrderGet (pyUpper l)

/-- Truthiness of the optional source query parameter. -/
def sourceTruthy : Option String → Bool
  | none => false
  | some s => s ≠ ""

/-- The helper _filter_entries of logs.py, written as the source loop with
its two continue conditions. -/
def filter_entries (entries : List LogEntry) (min_level : Nat)
    (source : Option String) : List LogEntry :=
  match entries with
  | [] => []
  | e :: rest =>
    if levelOrderGet e.level < min_level then
      filter_entries rest min_level source
    else if sourceTruthy source && !(e.logger_name.startsWith (source.getD "")) then
      filter_entries rest min_level source
    else
      e :: filter_entries rest min_level source

/-- An SSE frame emitted by the generator of stream_logs: a data frame
under event name log carrying one entry, or a heartbeat comment frame. -/
inductive Frame where
  | log (entry : LogEntry)
  | heartbeat
deriving DecidableEq, Repr

/-- The keyword parameter names accepted by the definition
async def wait_for_new(self, timeout: float = 30.0) — self aside,
only timeout. -/
def waitForNewParams : List String := ["timeout"]

/-- A Python keyword call of log_buffer.wait_for_new with the given keyword
argument names: a keyword not in the signature raises TypeError before the
body runs; otherwise the call behaves as wait_for_new with the given
timeout. -/
def callWaitForNew (b : LogBuffer) (kwargs : List (String × Nat)) :
    Except PyExc WaitBehavior :=
  if kwargs.all (fun kv => kv.1 ∈ waitForNewParams) then
    .ok (b.wait_for_new ((kwargs.lookup "timeout").getD 30))
  else
    .error .typeError

/-- One iteration of the while-True wait loop of stream_logs._generate:
try to await wait_for_new(after_seq=last_seq, timeout=30.0) catching only
TimeoutError, then re-query the buffer; emit the filtered entries and the
advanced cursor when entries arrived, else a heartbeat frame. -/
def streamLoopIter (b : LogBuffer) (last_seq : Nat) (min_level : Nat)
    (source : Option String) : Except PyExc (List Frame × Nat) := do
  let waitStep : Except PyExc Unit :=
    match callWaitForNew b [("after_seq", last_seq), ("timeout", 30)] with
    | .ok _ => .ok ()
    | .error .timeoutError => .ok ()
    | .error e => .error e
  let _ ← waitStep
  let ((entries, current_seq), _) := b.get_entries_since last_seq
  if entries.isEmpty then
    .ok ([.heartbeat], last_seq)
  else
    .ok ((filter_entries entries min_level source).map .log, current_seq)

/-- The record payload a producer extracts before sequencing: everything of
a LogEntry except the seq that next_seq will assign. -/
structure Payload where
  timestamp : String
  level : String
  logger_name : String
  message : String
  fields : List (String × String)
deriving DecidableEq, Repr

/-- Build the LogEntry that capture_log_processor constructs once next_seq
has returned the given seq for the given extracted payload. -/
def mkEntry (seq : Nat) (p : Payload) : LogEntry :=
  { seq := seq, timestamp := p.timestamp, level := p.level,
    logger_name := p.logger_name, message := p.message, fields := p.fields }

/-- One complete, uninterleaved capture: next_seq then append, as
capture_log_processor performs them back to back. -/
def captureOne (b : LogBuffer) (p : Payload) : LogBuffer :=
  let (s, b1) := b.next_seq
  (b1.append (mkEntry s p)).1

/-- n sequential captures, the i-th (1-based) carrying payload pl i. -/
def captureRun (pl : Nat → Payload) (b : LogBuffer) : Nat → LogBuffer
  | 0 => b
  | n + 1 => captureOne (captureRun pl b n) (pl (n + 1))

/-- Interleaved atomic next_seq calls: given the schedule of producer ids
in execution order, the list of (producer, allocated seq) pairs. -/
def allocRun (b : LogBuffer) : List Nat → List (Nat × Nat)
  | [] => []
  | p :: rest =>
    let (v, b') := b.next_seq
    (p, v) :: allocRun b' rest

/-- The seq values the producer p receives, in its own capture order. -/
def producerSeqs (alloc : List (Nat × Nat)) (p : Nat) : List Nat :=
  (alloc.filter (fun x => x.1 == p)).map (·.2)

/-- Global state for interleaved producers: the shared buffer plus, for each
producer mid-capture, the entry it built after next_seq but has not yet
appended. -/
structure CaptureState where
  buf : LogBuffer
  pending : List (Nat × LogEntry)
deriving DecidableEq, Repr

/-- One atomic step of a producer capture: alloc runs next_seq and builds
the entry (the two lock-free lines between the two lock blocks of
capture_log_processor collapsed into the alloc step), insert runs append
with the previously built entry.  Each lock block of the source is one
step; distinct producers interleave freely. -/
inductive CaptureStep : CaptureState → CaptureState → Prop where
  | alloc (p : Nat) (pl : Payload) (s : CaptureState)
      (h : s.pending.lookup p = none) :
      CaptureStep s
        { buf := (s.buf.next_seq).2,
          pending := (p, mkEntry (s.buf.next_seq).1 pl) :: s.pending }
  | insert (p : Nat) (e : LogEntry) (s : CaptureState)
      (h : s.pending.lookup p = some e) :
      CaptureStep s
        { buf := ((s.buf.append e)).1,
          pending := s.pending.eraseP (fun kv => kv.1 == p) }

/-- States reachable from an empty buffer of the given capacity by
interleaved producer steps (readers run get_entries_since, which leaves
the state unchanged, so they need no step of their own). -/
def ReachableCapture (maxlen : Nat) (s : CaptureState) : Prop :=
  Relation.ReflTransGen CaptureStep { buf := .init maxlen, pending := [] } s

/-- Buffer operations other than bind_loop, for modelling a process in
which bind_loop is never called. -/
inductive UnboundOp where
  | app (e : LogEntry)
  | nseq
  | get (after_seq : Nat)
deriving DecidableEq, Repr

/-- Apply one non-bind operation to the buffer state. -/
def applyUnboundOp (b : LogBuffer) : UnboundOp → LogBuffer
  | .app e => (b.append e).1
  | .nseq => (b.next_seq).2
  | .get a => (b.get_entries_since a).2

/-- Run a list of non-bind operations from the given state. -/
def runUnboundOps (b : LogBuffer) (ops : List UnboundOp) : LogBuffer :=
  ops.foldl applyUnboundOp b

/-- Fold a list of entries into the buffer through LogBuffer.append. -/
def appendAll (b : LogBuffer) (es : List LogEntry) : LogBuffer :=
  es.foldl (fun acc e => (acc.append e).1) b

/-- A concrete extracted payload used to instantiate the generic theorems. -/
def samplePayload : Payload :=
  { timestamp := "2026-01-01T00:00:00Z", level := "INFO",
    logger_name := "zondarr.api.foo", message := "hello", fields := [] }

/-- A concrete entry carrying samplePayload under the given seq. -/
def sampleEntry (n : Nat) : LogEntry := mkEntry n samplePayload

/-- The state reached by the interleaving: producer 1 runs next_seq, then
producer 2 runs next_seq and append, then producer 1 runs append.  The
buffer then retains the entries in the order seq 2, seq 1. -/
def cexState : CaptureState :=
  { buf := { deque := [sampleEntry 2, sampleEntry 1], seq := 2,
             loop := none, condition := none, maxlen := 5000 },
    pending := [] }

/-- Intermediate interleaving state: producer 1 has run next_seq. -/
def cexS1 : CaptureState :=
  { buf := { deque := [], seq := 1, loop := none, condition := none,
             maxlen := 5000 },
    pending := [(1, sampleEntry 1)] }

/-- Intermediate interleaving state: producer 2 has also run next_seq. -/
def cexS2 : CaptureState :=
  { buf := { deque := [], seq := 2, loop := none, condition := none,
             maxlen := 5000 },
    pending := [(2, sampleEntry 2), (1, sampleEntry 1)] }

/-- Intermediate interleaving state: producer 2 has appended its entry
while producer 1 still holds seq 1 unappended. -/
def cexS3 : CaptureState :=
  { buf := { deque := [sampleEntry 2], seq := 2, loop := none,
             condition := none, maxlen := 5000 },
    pending := [(1, sampleEntry 1)] }

/-- The invariant that interleaved capture steps do preserve: every entry in
the buffer, and every entry built but not yet appended, has a seq no
larger than the shared counter. -/
def SeqBounded (s : CaptureState) : Prop :=
  (∀ e ∈ s.buf.deque, e.seq ≤ s.buf.seq) ∧
  ∀ pe ∈ s.pending, pe.2.seq ≤ s.buf.seq

/-- Modelled from the spec: the rank of the level named by the optional
level query parameter — absent or unrecognized (case-insensitively)
means rank 0, i.e. no level filtering. -/
def specParamRank (level : Option String) : Nat :=
  match level with
  | none => 0
  | some l => levelOrderGet (pyUpper l)

/-- Modelled from the spec: an entry passes the stream filter iff the rank
of its level is at least the rank of the level parameter and the source
parameter is absent or empty or the logger name starts with it. -/
def specDelivers (level source : Option String) (e : LogEntry) : Bool :=
  (specParamRank level ≤ levelOrderGet e.level) &&
  (match source with
   | none => true
   | some s => s = "" || e.logger_name.startsWith s)

/-! Helper lemmas about the deque and repeated appends. -/

theorem dequeAppend_length_le (C : Nat) (d : List LogEntry) (e : LogEntry)
    (h : d.length ≤ C) : (dequeAppend C d e).length ≤ C := by
  simp only [dequeAppend]
  split
  · simp only [List.length_drop]
    omega
  · rename_i h2
    simp only [not_lt] at h2
    exact h2

theorem mem_dequeAppend {C : Nat} {d : List LogEntry} {e x : LogEntry}
    (h : x ∈ dequeAppend C d e) : x ∈ d ++ [e] := by
  simp only [dequeAppend] at h
  split at h
  · exact List.mem_of_mem_drop h
  · exact h

theorem appendAll_maxlen (es : List LogEntry) :
    ∀ b : LogBuffer, (appendAll b es).maxlen = b.maxlen := by
  induction es with
  | nil => intro b; rfl
  | cons e rest ih =>
    intro b
    simpa [appendAll, List.foldl] using ih (b.append e).1

theorem appendAll_deque_length (es : List LogEntry) :
    ∀ b : LogBuffer, b.deque.length ≤ b.maxlen →
      (appendAll b es).deque.length ≤ b.maxlen := by
  induction es with
  | nil => intro b h; exact h
  | cons e rest ih =>
    intro b h
    have h1 : ((b.append e).1).deque.length ≤ (b.append e).1.maxlen :=
      dequeAppend_length_le _ _ _ h
    simpa [appendAll, List.foldl] using ih (b.append e).1 h1

/-- C5: for every sequence of appends to a buffer constructed with capacity
C, the buffer never holds more than C entries, and an append arriving with
the buffer full drops exactly the oldest retained entry: the new deque is
the tail of the old deque extended on the right with the new entry. -/
theorem buffer_bounded_and_fifo_eviction (C : Nat) (es : List LogEntry) (e : LogEntry) :
    (appendAll (LogBuffer.init C) es).deque.length ≤ C ∧
    ((appendAll (LogBuffer.init C) es).deque.length = C →
      ((appendAll (LogBuffer.init C) es).append e).1.deque =
        ((appendAll (LogBuffer.init C) es).deque ++ [e]).tail) := by
  constructor
  · have h0 : (LogBuffer.init C).deque.length ≤ (LogBuffer.init C).maxlen := by
      simp [LogBuffer.init]
    simpa [LogBuffer.init] using appendAll_deque_length es (LogBuffer.init C) h0
  · intro hfull
    have hm : (appendAll (LogBuffer.init C) es).maxlen = C := by
      simpa [LogBuffer.init] using appendAll_maxlen es (LogBuffer.init C)
    simp only [LogBuffer.append, dequeAppend, hm]
    rw [if_pos (by simp [hfull])]
    simp [hfull, List.drop_one]

/-- C5 witness: with capacity 2 and two entries already appended, appending
a third drops the oldest and keeps the two newest. -/
theorem buffer_bounded_and_fifo_eviction_witness :
    ((appendAll (LogBuffer.init 2) [sampleEntry 1, sampleEntry 2]).append
        (sampleEntry 3)).1.deque = [sampleEntry 2, sampleEntry 3] :=
  ((buffer_bounded_and_fifo_eviction 2 [sampleEntry 1, sampleEntry 2]
      (sampleEntry 3)).2 (by decide)).trans (by decide)

/-- C10: get_entries_since is read-only: the state it leaves behind has the
same retained entries and the same sequence counter as the state it read. -/
theorem get_entries_since_readonly (b : LogBuffer) (a : Nat) :
    ((b.get_entries_since a).2).deque = b.deque ∧
    ((b.get_entries_since a).2).seq = b.seq :=
  ⟨rfl, rfl⟩

/-- C3 (code bug): every iteration of the stream wait loop raises TypeError
rather than heartbeating: wait_for_new accepts only the timeout keyword,
the loop passes after_seq as well, and the except clause catches only
TimeoutError, so the error escapes the generator in every buffer state. -/
theorem stream_wait_loop_raises (b : LogBuffer) (last_seq min_level : Nat)
    (source : Option String) :
    streamLoopIter b last_seq min_level source = .error .typeError := rfl

/-- C2 counterexample: an event dict holding one extra value whose str()
raises makes capture_log_processor itself raise (no local catch), instead
of dropping the entry and returning the event dict. -/
theorem capture_raises_on_bad_value :
    capture_log_processor [("x", PyVal.badObj)] (LogBuffer.init 5000) =
      .error .strError := rfl

/-! The shape of the buffer after n sequential captures. -/

theorem dequeAppend_drop (C n : Nat) (L : List LogEntry) (x : LogEntry)
    (hL : L.length = n) :
    dequeAppend C (L.drop (n - C)) x = (L ++ [x]).drop (n + 1 - C) := by
  by_cases hnC : n < C
  · have h1 : n - C = 0 := by omega
    have h2 : n + 1 - C = 0 := by omega
    have h3 : ¬ C < (L.drop (n - C) ++ [x]).length := by
      simp only [List.length_append, List.length_singleton, List.length_drop, hL]
      omega
    simp only [dequeAppend]
    rw [if_neg h3, h1, h2, List.drop_zero, List.drop_zero]
  · by_cases hC : C = 0
    · subst hC
      have h1 : L.drop (n - 0) = [] := List.drop_eq_nil_of_le (by omega)
      have h2 : (L ++ [x]).drop (n + 1 - 0) = [] :=
        List.drop_eq_nil_of_le (by simp [hL])
      rw [h1, h2]
      simp [dequeAppend]
    · have hlen : (L.drop (n - C)).length = C := by
        simp only [List.length_drop, hL]
        omega
      have hcond : C < (L.drop (n - C) ++ [x]).length := by
        simp only [List.length_append, List.length_singleton, hlen]
        omega
      have hstep1 : dequeAppend C (L.drop (n - C)) x =
          (L.drop (n - C) ++ [x]).drop ((L.drop (n - C) ++ [x]).length - C) := by
        simp only [dequeAppend]
        rw [if_pos hcond]
      have hstep2 : (L.drop (n - C) ++ [x]).length - C = 1 := by
        simp only [List.length_append, List.length_singleton, hlen]
        omega
      rw [hstep1, hstep2,
        List.drop_append_of_le_length (by omega : 1 ≤ (L.drop (n - C)).length),
        List.drop_drop,
        List.drop_append_of_le_length (by omega : n + 1 - C ≤ L.length)]
      have h4 : n - C + 1 = n + 1 - C := by omega
      rw [h4]

theorem captureRun_spec (pl : Nat → Payload) (C : Nat) (n : Nat) :
    (captureRun pl (LogBuffer.init C) n).seq = n ∧
    (captureRun pl (LogBuffer.init C) n).maxlen = C ∧
    (captureRun pl (LogBuffer.init C) n).deque =
      ((List.range' 1 n).map (fun i => mkEntry i (pl i))).drop (n - C) := by
  induction n with
  | zero =>
    refine ⟨rfl, rfl, ?_⟩
    simp [captureRun, LogBuffer.init]
  | succ n ih =>
    obtain ⟨hseq, hmax, hdeq⟩ := ih
    refine ⟨?_, ?_, ?_⟩
    · simp [captureRun, captureOne, LogBuffer.next_seq, LogBuffer.append, hseq]
    · simp [captureRun, captureOne, LogBuffer.next_seq, LogBuffer.append, hmax]
    · have hconcat : List.range' 1 (n + 1) = List.range' 1 n ++ [n + 1] := by
        have h1 : 1 + 1 * n = n + 1 := by omega
        rw [List.range'_concat, h1]
      show dequeAppend (captureRun pl (LogBuffer.init C) n).maxlen
        (captureRun pl (LogBuffer.init C) n).deque
        (mkEntry ((captureRun pl (LogBuffer.init C) n).seq + 1) (pl (n + 1))) = _
      rw [hseq, hmax, hdeq, hconcat, List.map_append]
      simp only [List.map_cons, List.map_nil]
      exact dequeAppend_drop C n ((List.range' 1 n).map (fun i => mkEntry i (pl i)))
        (mkEntry (n + 1) (pl (n + 1))) (by simp)

theorem mem_captureRun_seq_bound (pl : Nat → Payload) (C n : Nat) (e : LogEntry)
    (he : e ∈ (captureRun pl (LogBuffer.init C) n).deque) :
    1 ≤ e.seq ∧ e.seq ≤ n := by
  obtain ⟨-, -, hdeq⟩ := captureRun_spec pl C n
  rw [hdeq] at he
  have hmem := List.mem_of_mem_drop he
  obtain ⟨i, hi, rfl⟩ := List.mem_map.mp hmem
  obtain ⟨h1, h2⟩ := List.mem_range'_1.mp hi
  constructor
  · simpa [mkEntry] using h1
  · simp only [mkEntry]
    omega

/-- C6: with capacity 3, after five sequential captures (seq 1..5) the
buffer answers GetSince 0 with seqs 3,4,5, GetSince 3 with seqs 4,5 and
GetSince 5 with nothing; and in general, after N sequential captures into
a buffer of capacity C, GetSince 0 returns exactly min N C entries in
strictly increasing seq order. -/
theorem getSince_after_sequential_appends :
    (((captureRun (fun _ => samplePayload) (LogBuffer.init 3) 5).get_entries_since
        0).1.1.map LogEntry.seq = [3, 4, 5]) ∧
    (((captureRun (fun _ => samplePayload) (LogBuffer.init 3) 5).get_entries_since
        3).1.1.map LogEntry.seq = [4, 5]) ∧
    (((captureRun (fun _ => samplePayload) (LogBuffer.init 3) 5).get_entries_since
        5).1.1 = []) ∧
    ∀ (pl : Nat → Payload) (N C : Nat),
      ((captureRun pl (LogBuffer.init C) N).get_entries_since 0).1.1.length =
          min N C ∧
      (((captureRun pl (LogBuffer.init C) N).get_entries_since 0).1.1.map
          LogEntry.seq).Pairwise (· < ·) := by
  refine ⟨by decide, by decide, by decide, ?_⟩
  intro pl N C
  obtain ⟨-, -, hdeq⟩ := captureRun_spec pl C N
  have hfilter : ((captureRun pl (LogBuffer.init C) N).get_entries_since 0).1.1 =
      (captureRun pl (LogBuffer.init C) N).deque := by
    simp only [LogBuffer.get_entries_since]
    rw [List.filter_eq_self]
    intro e he
    have := (mem_captureRun_seq_bound pl C N e he).1
    simpa using this
  constructor
  · rw [hfilter, hdeq]
    simp only [List.length_drop, List.length_map, List.length_range']
    omega
  · rw [hfilter, hdeq]
    have h1 : ((((List.range' 1 N).map (fun i => mkEntry i (pl i))).drop
        (N - C)).map LogEntry.seq) = (List.range' 1 N).drop (N - C) := by
      rw [← List.map_drop, List.map_map]
      have h2 : (LogEntry.seq ∘ fun i => mkEntry i (pl i)) = id :=
        funext fun i => rfl
      rw [h2, List.map_id]
    rw [h1]
    exact List.Pairwise.sublist (List.drop_sublist _ _)
      (List.pairwise_lt_range' 1 N)

/-- C8: after any number of sequential captures, querying at or beyond the
current maximum seq returns an empty entry list together with the current
(unchanged) maximum seq, and leaves the buffer state untouched. -/
theorem getSince_beyond_max_empty (pl : Nat → Payload) (C N a : Nat)
    (h : (captureRun pl (LogBuffer.init C) N).seq ≤ a) :
    ((captureRun pl (LogBuffer.init C) N).get_entries_since a).1 =
      ([], (captureRun pl (LogBuffer.init C) N).seq) ∧
    ((captureRun pl (LogBuffer.init C) N).get_entries_since a).2 =
      captureRun pl (LogBuffer.init C) N := by
  refine ⟨?_, rfl⟩
  have hnil : (captureRun pl (LogBuffer.init C) N).deque.filter
      (fun e => a < e.seq) = [] := by
    rw [List.filter_eq_nil_iff]
    intro e he
    have hb := (mem_captureRun_seq_bound pl C N e he).2
    have hs := (captureRun_spec pl C N).1
    simp only [decide_eq_true_eq]
    omega
  simp [LogBuffer.get_entries_since, hnil]

/-- C8 witness: two captures into a capacity-3 buffer, queried at the
current maximum seq 2, yield no entries and max seq 2. -/
theorem getSince_beyond_max_empty_witness :
    ((captureRun (fun _ => samplePayload) (LogBuffer.init 3) 2).get_entries_since
        2).1 = ([], (captureRun (fun _ => samplePayload) (LogBuffer.init 3) 2).seq) ∧
    ((captureRun (fun _ => samplePayload) (LogBuffer.init 3) 2).get_entries_since
        2).2 = captureRun (fun _ => samplePayload) (LogBuffer.init 3) 2 :=
  getSince_beyond_max_empty (fun _ => samplePayload) 3 2 2 (by decide)

theorem runUnboundOps_unbound (ops : List UnboundOp) :
    ∀ b : LogBuffer, b.loop = none → b.condition = none →
      (runUnboundOps b ops).loop = none ∧ (runUnboundOps b ops).condition = none := by
  induction ops with
  | nil => intro b h1 h2; exact ⟨h1, h2⟩
  | cons op rest ih =>
    intro b h1 h2
    have hop : (applyUnboundOp b op).loop = none ∧
        (applyUnboundOp b op).condition = none := by
      cases op <;> simp [applyUnboundOp, LogBuffer.append, LogBuffer.next_seq,
        LogBuffer.get_entries_since, h1, h2]
    simpa [runUnboundOps, List.foldl] using ih (applyUnboundOp b op) hop.1 hop.2

/-- C9: in a process in which bind_loop was never called, after any sequence
of appends, sequence allocations and reads, an append schedules no
notification and a waiter falls back to sleeping the full bounded timeout
and returning False. -/
theorem unbound_bridge_signal_noop_and_poll (C : Nat) (ops : List UnboundOp)
    (e : LogEntry) (t : Nat) :
    ((runUnboundOps (LogBuffer.init C) ops).append e).2 = false ∧
    (runUnboundOps (LogBuffer.init C) ops).wait_for_new t =
      .fallbackSleep t false := by
  obtain ⟨h1, h2⟩ := runUnboundOps_unbound ops (LogBuffer.init C) rfl rfl
  constructor
  · simp [LogBuffer.append, h1, h2]
  · simp [LogBuffer.wait_for_new, h2]

/-! Interleaved sequence allocation. -/

theorem allocRun_map_snd (sched : List Nat) :
    ∀ b : LogBuffer, (allocRun b sched).map (·.2) =
      List.range' (b.seq + 1) sched.length := by
  induction sched with
  | nil => intro b; rfl
  | cons p rest ih =>
    intro b
    simp only [allocRun, LogBuffer.next_seq, List.map_cons, List.length_cons]
    rw [List.range'_succ]
    exact congrArg _ (ih { b with seq := b.seq + 1 })

theorem allocRun_pairwise_snd (sched : List Nat) (b : LogBuffer) :
    (allocRun b sched).Pairwise (fun u v => u.2 < v.2) := by
  have h2 : ((allocRun b sched).map (·.2)).Pairwise (· < ·) := by
    rw [allocRun_map_snd]
    exact List.pairwise_lt_range' _ _
  exact List.pairwise_map.mp h2

theorem length_of_counts (M K : Nat) (l : List Nat)
    (hmem : ∀ p ∈ l, p < M) (hcount : ∀ p < M, l.count p = K) :
    l.length = M * K := by
  have h1 : l.length = ∑ a ∈ l.toFinset, l.count a :=
    (List.sum_toFinset_count_eq_length l).symm
  have hsub : l.toFinset ⊆ Finset.range M := by
    intro x hx
    rw [List.mem_toFinset] at hx
    exact Finset.mem_range.mpr (hmem x hx)
  have h2 : ∑ a ∈ l.toFinset, l.count a = ∑ a ∈ Finset.range M, l.count a := by
    refine Finset.sum_subset hsub ?_
    intro x _ hx
    rw [List.mem_toFinset] at hx
    exact List.count_eq_zero_of_not_mem hx
  have h3 : ∑ a ∈ Finset.range M, l.count a = M * K := by
    rw [Finset.sum_congr rfl (fun x hx => hcount x (Finset.mem_range.mp hx))]
    simp [Finset.sum_const, Finset.card_range, Nat.mul_comm]
  rw [h1, h2, h3]

/-- C4: interleaved atomic next_seq steps hand out pairwise distinct seq
values — M producers performing K captures each receive M times K values
in total — and each producer's successive values are strictly increasing
in its own capture order. -/
theorem alloc_distinct_and_per_producer_increasing (M K : Nat) (sched : List Nat)
    (b : LogBuffer) (hmem : ∀ p ∈ sched, p < M)
    (hcount : ∀ p < M, sched.count p = K) :
    ((allocRun b sched).map (·.2)).Nodup ∧
    ((allocRun b sched).map (·.2)).length = M * K ∧
    ∀ p : Nat, (producerSeqs (allocRun b sched) p).Pairwise (· < ·) := by
  refine ⟨?_, ?_, ?_⟩
  · rw [allocRun_map_snd]
    exact List.nodup_range' _ _
  · rw [allocRun_map_snd, List.length_range']
    exact length_of_counts M K sched hmem hcount
  · intro p
    refine List.pairwise_map.mpr ?_
    exact List.Pairwise.sublist (List.filter_sublist _)
      (allocRun_pairwise_snd sched b)

/-- C4 witness: two producers capturing twice each under the interleaving
0,1,0,1 get the four distinct seqs 1..4, each producer's pair increasing. -/
theorem alloc_distinct_and_per_producer_increasing_witness :
    ((allocRun (LogBuffer.init 5000) [0, 1, 0, 1]).map (·.2)).Nodup ∧
    ((allocRun (LogBuffer.init 5000) [0, 1, 0, 1]).map (·.2)).length = 2 * 2 ∧
    ∀ p : Nat, (producerSeqs (allocRun (LogBuffer.init 5000) [0, 1, 0, 1])
      p).Pairwise (· < ·) :=
  alloc_distinct_and_per_producer_increasing 2 2 [0, 1, 0, 1]
    (LogBuffer.init 5000) (by decide) (by decide)

/-! The stream filter against the filtering contract of the spec. -/

theorem minLevel_eq (level : Option String) :
    minLevelOf level = specParamRank level := by
  cases level with
  | none => rfl
  | some l =>
    by_cases h : l = ""
    · subst h
      show (0 : Nat) = levelOrderGet (pyUpper "")
      decide
    · simp [minLevelOf, specParamRank, h]

/-- C7: the stream delivery filter delivers exactly the entries whose level
rank is at least the rank of the level parameter (absent or unrecognized
parameter meaning rank 0) and whose logger name starts with the source
parameter when one is given and non-empty, preserving the original order:
the code path equals a List.filter by the spec's predicate. -/
theorem filter_matches_spec_contract (entries : List LogEntry)
    (level source : Option String) :
    filter_entries entries (minLevelOf level) source =
      entries.filter (specDelivers level source) := by
  induction entries with
  | nil => rfl
  | cons e rest ih =>
    by_cases h1 : levelOrderGet e.level < minLevelOf level
    · have hs : specDelivers level source e = false := by
        have hr : ¬ specParamRank level ≤ levelOrderGet e.level := by
          rw [← minLevel_eq level]
          omega
        simp [specDelivers, hr]
      simp only [filter_entries, if_pos h1, List.filter_cons, hs]
      simpa using ih
    · by_cases h2 : (sourceTruthy source && !(e.logger_name.startsWith
          (source.getD ""))) = true
      · have hs : specDelivers level source e = false := by
          cases source with
          | none => simp [sourceTruthy] at h2
          | some s =>
            simp [sourceTruthy] at h2
            simp [specDelivers, h2.1, h2.2]
        simp only [filter_entries, if_neg h1, if_pos h2, List.filter_cons, hs]
        simpa using ih
      · have hrank : specParamRank level ≤ levelOrderGet e.level := by
          rw [← minLevel_eq level]
          omega
        have hs : specDelivers level source e = true := by
          cases source with
          | none => simp [specDelivers, hrank]
          | some s =>
            simp [sourceTruthy] at h2
            by_cases hse : s = ""
            · simp [specDelivers, hrank, hse]
            · simp [specDelivers, hrank, hse, h2 hse]
        simp only [filter_entries, if_neg h1, if_neg h2, List.filter_cons, hs]
        simp [ih]

/-! Interleaved captures: the seq/insertion race. -/

theorem lookup_mem {α β : Type} [BEq α] [LawfulBEq α] {l : List (α × β)}
    {k : α} {v : β} (h : l.lookup k = some v) : (k, v) ∈ l := by
  induction l with
  | nil => simp [List.lookup] at h
  | cons a l ih =>
    obtain ⟨k', v'⟩ := a
    by_cases hk : k = k'
    · subst hk
      rw [List.lookup, beq_self_eq_true] at h
      obtain rfl : v' = v := Option.some.inj h
      exact List.mem_cons_self _ _
    · have hb : (k == k') = false := beq_eq_false_iff_ne.mpr hk
      rw [List.lookup, hb] at h
      exact List.mem_cons_of_mem _ (ih h)

theorem captureStep_preserves_seqBounded {s t : CaptureState}
    (hst : CaptureStep s t) (h : SeqBounded s) : SeqBounded t := by
  obtain ⟨hd, hp⟩ := h
  cases hst with
  | alloc p pl s hlook =>
    constructor
    · intro e he
      have := hd e he
      simp only [LogBuffer.next_seq]
      omega
    · intro pe hpe
      rcases List.mem_cons.mp hpe with h1 | h1
      · subst h1
        simp [LogBuffer.next_seq, mkEntry]
      · have := hp pe h1
        simp only [LogBuffer.next_seq]
        omega
  | insert p e s hlook =>
    constructor
    · intro x hx
      have hx' : x ∈ s.buf.deque ++ [e] := mem_dequeAppend hx
      rcases List.mem_append.mp hx' with h1 | h1
      · exact hd x h1
      · obtain rfl : x = e := by simpa using h1
        exact hp (p, x) (lookup_mem hlook)
    · intro pe hpe
      exact hp pe (List.Sublist.mem hpe (List.eraseP_sublist _))

theorem reachable_seqBounded {C : Nat} {s : CaptureState}
    (h : ReachableCapture C s) : SeqBounded s := by
  induction h with
  | refl =>
    constructor
    · intro e he
      simp [LogBuffer.init] at he
    · intro pe hpe
      simp at hpe
  | tail hst step ih => exact captureStep_preserves_seqBounded step ih

theorem cexState_reachable : ReachableCapture 5000 cexState := by
  have h1 : CaptureStep { buf := LogBuffer.init 5000, pending := [] } cexS1 :=
    CaptureStep.alloc 1 samplePayload _ rfl
  have h2 : CaptureStep cexS1 cexS2 :=
    CaptureStep.alloc 2 samplePayload _ rfl
  have h3 : CaptureStep cexS2 cexS3 :=
    CaptureStep.insert 2 (sampleEntry 2) _ rfl
  have h4 : CaptureStep cexS3 cexState :=
    CaptureStep.insert 1 (sampleEntry 1) _ rfl
  exact .tail (.tail (.tail (.tail .refl h1) h2) h3) h4

/-- C1 counterexample: the interleaving in which producer 1 allocates seq 1,
producer 2 allocates seq 2 and appends, and only then producer 1 appends,
reaches a state where GetSince 0 returns the entries in the order
seq 2 then seq 1 — not strictly increasing seq order. -/
theorem interleaved_capture_breaks_seq_order :
    ReachableCapture 5000 cexState ∧
    ((cexState.buf.get_entries_since 0).1.1.map LogEntry.seq = [2, 1]) ∧
    ¬ ((cexState.buf.get_entries_since 0).1.1.map LogEntry.seq).Pairwise
        (· < ·) :=
  ⟨cexState_reachable, by decide, by decide⟩

/-- C1 amended: in every state reachable by interleaved producer captures,
GetSince afterSeq returns only retained entries with seq above afterSeq
and its currentMaxSeq is at least the seq of every returned entry; the
returned order is buffer insertion order, which interleaving can make
differ from seq order (see the counterexample). -/
theorem getSince_consistent_maxSeq (C : Nat) (s : CaptureState)
    (h : ReachableCapture C s) (a : Nat) :
    (∀ e ∈ s.buf.deque, a < e.seq → e ∈ ((s.buf.get_entries_since a).1).1) ∧
    ∀ e ∈ ((s.buf.get_entries_since a).1).1,
      a < e.seq ∧ e.seq ≤ ((s.buf.get_entries_since a).1).2 := by
  constructor
  · intro e he ha
    exact List.mem_filter.mpr ⟨he, by simpa using ha⟩
  · intro e he
    have hmem : e ∈ s.buf.deque := (List.mem_filter.mp he).1
    have hcond := (List.mem_filter.mp he).2
    refine ⟨by simpa using hcond, ?_⟩
    exact (reachable_seqBounded h).1 e hmem

/-- C1 witness: the amended consistency guarantee evaluated at the reachable
out-of-order state: both returned entries (seq 2 and seq 1) lie above the
cursor 0 and at or below the returned currentMaxSeq. -/
theorem getSince_consistent_maxSeq_witness :
    (∀ e ∈ cexState.buf.deque, 0 < e.seq →
      e ∈ ((cexState.buf.get_entries_since 0).1).1) ∧
    ∀ e ∈ ((cexState.buf.get_entries_since 0).1).1,
      0 < e.seq ∧ e.seq ≤ ((cexState.buf.get_entries_since 0).1).2 :=
  getSince_consistent_maxSeq 5000 cexState cexState_reachable 0

/-! The capture hook on well-behaved event dicts. -/

theorem pyStrOf_dictGet_ok (d : List (String × PyVal)) (k s : String)
    (h : ∀ kv ∈ d, kv.2 ≠ PyVal.badObj) :
    ∃ t, pyStrOf (dictGet d k (.str s)) = .ok t := by
  unfold dictGet
  cases hl : d.lookup k with
  | none => exact ⟨s, rfl⟩
  | some v =>
    have hv := h (k, v) (lookup_mem hl)
    cases v with
    | str t => exact ⟨t, rfl⟩
    | badObj => exact absurd rfl hv

theorem collectFields_ok (d : List (String × PyVal))
    (h : ∀ kv ∈ d, kv.2 ≠ PyVal.badObj) :
    ∃ fs, collectFields d = .ok fs := by
  induction d with
  | nil => exact ⟨[], rfl⟩
  | cons kv rest ih =>
    obtain ⟨k, v⟩ := kv
    obtain ⟨fs, hfs⟩ := ih (fun x hx => h x (List.mem_cons_of_mem _ hx))
    by_cases hk : k ∈ knownKeys
    · refine ⟨fs, ?_⟩
      simp only [collectFields, if_pos hk]
      exact hfs
    · have hv := h (k, v) (List.mem_cons_self _ _)
      cases v with
      | badObj => exact absurd rfl hv
      | str t =>
        refine ⟨(k, t) :: fs, ?_⟩
        simp only [collectFields, if_neg hk, pyStrOf]
        rw [hfs]
        rfl

/-- C2 amended: capture_log_processor has no local exception handling — a
value whose str() raises makes the hook itself raise, with nothing
appended (see the counterexample) — but whenever every value stringifies,
the hook allocates the next seq, appends exactly one entry carrying it,
and returns the event dict unchanged to the pipeline. -/
theorem capture_ok_appends_and_passes_through (d : List (String × PyVal))
    (b : LogBuffer) (h : ∀ kv ∈ d, kv.2 ≠ PyVal.badObj) :
    ∃ e : LogEntry, e.seq = b.seq + 1 ∧
      capture_log_processor d b =
        .ok (d, { b with
                  seq := b.seq + 1,
                  deque := dequeAppend b.maxlen b.deque e }) := by
  obtain ⟨t1, h1⟩ := pyStrOf_dictGet_ok d "timestamp" "" h
  obtain ⟨t2, h2⟩ := pyStrOf_dictGet_ok d "level" "INFO" h
  obtain ⟨t3, h3⟩ := pyStrOf_dictGet_ok d "_logger" "" h
  obtain ⟨t4, h4⟩ := pyStrOf_dictGet_ok d "event" "" h
  obtain ⟨fs, hfs⟩ := collectFields_ok d h
  refine ⟨{ seq := b.seq + 1, timestamp := t1, level := pyUpper t2,
            logger_name := t3, message := t4, fields := fs }, rfl, ?_⟩
  simp only [capture_log_processor, h1, h2, h3, h4, hfs]
  rfl

/-- C2 witness: a concrete well-behaved event dict is captured — seq 1 is
allocated, the entry is appended — and the dict comes back unchanged. -/
theorem capture_ok_appends_and_passes_through_witness :
    ∃ e : LogEntry, e.seq = (LogBuffer.init 5000).seq + 1 ∧
      capture_log_processor
          [("event", PyVal.str "hi"), ("user", PyVal.str "bob")]
          (LogBuffer.init 5000) =
        .ok ([("event", PyVal.str "hi"), ("user", PyVal.str "bob")],
          { (LogBuffer.init 5000) with
            seq := (LogBuffer.init 5000).seq + 1,
            deque := dequeAppend (LogBuffer.init 5000).maxlen
                (LogBuffer.init 5000).deque e }) :=
  capture_ok_appends_and_passes_through
    [("event", PyVal.str "hi"), ("user", PyVal.str "bob")]
    (LogBuffer.init 5000) (by decide)

end Zondarr
